import Mathlib

/-!
Verification of the concurrent mark-compact collector core (`mark_compact.cc`).

This file shallowly embeds the parts of the collector that the specification's
claims are about:

* the planner's exclusive prefix-sum over the per-chunk live-byte histogram
  (`MarkCompact::PrepareForCompaction`);
* the per-destination-page state machine driven by
  `MarkCompact::DoPageCompactionWithStateChange`,
  `MarkCompact::ConcurrentlyProcessMovingPage`,
  `MarkCompact::MapMovingSpacePages` and `MarkCompact::MapProcessedPages`;
* the fault handler `MarkCompact::SigbusHandler`;
* live-info accounting in `MarkCompact::UpdateLivenessInfo`;
* from-space reclamation in `MarkCompact::FreeFromSpacePages`.

Machine pointers are modelled as natural numbers (byte addresses), the
atomically updated page-status words as values of an explicit `PageState`
type, and the userfaultfd ioctls as oracles: the number of bytes the kernel
actually acted on is a parameter of the embedding, constrained exactly as the
code's `DCHECK`s constrain the ioctl results.
-/

namespace MarkCompactProof

/-- Page size used by the collector (`gPageSize`); 4096 on the reference
configuration. -/
def gPageSize : Nat := 4096

/-- Object alignment (`kAlignment`): one live-words-bitmap bit covers this
many bytes. -/
def kAlignment : Nat := 8

/-- Number of live-words-bitmap bits per chunk-info vector word
(`kBitsPerVectorWord`). -/
def kBitsPerVectorWord : Nat := 64

/-- Bytes covered by one chunk-info entry (`kOffsetChunkSize`):
one bitmap vector word's worth of alignment units. -/
def kOffsetChunkSize : Nat := kBitsPerVectorWord * kAlignment

/-- Round `x` up to the next multiple of `n` (`AlignUp`). -/
def alignUp (x n : Nat) : Nat := ((x + n - 1) / n) * n

/-- Round `x` down to a multiple of `n` (`AlignDown`). -/
def alignDown (x n : Nat) : Nat := (x / n) * n

theorem alignUp_le {x n m : Nat} (hn : 0 < n) (hd : n ∣ m) (hx : x ≤ m) :
    alignUp x n ≤ m := by
  obtain ⟨k, rfl⟩ := hd
  unfold alignUp
  have h1 : x + n - 1 < n * (k + 1) := by
    have he : n * (k + 1) = n * k + n := by ring
    omega
  have h3 : (x + n - 1) / n ≤ k := Nat.lt_succ_iff.mp (Nat.div_lt_of_lt_mul h1)
  calc ((x + n - 1) / n) * n ≤ k * n := Nat.mul_le_mul_right n h3
    _ = n * k := Nat.mul_comm k n

theorem le_alignUp {x n : Nat} (hn : 0 < n) : x ≤ alignUp x n := by
  unfold alignUp
  have hdm := Nat.div_add_mod (x + n - 1) n
  have hmod : (x + n - 1) % n < n := Nat.mod_lt _ hn
  have hcomm : ((x + n - 1) / n) * n = n * ((x + n - 1) / n) := Nat.mul_comm _ _
  omega

/-! ### Exclusive prefix-sum (`std::exclusive_scan` in `PrepareForCompaction`)

`PrepareForCompaction` turns the per-chunk live-byte histogram
`chunk_info_vec_` into its exclusive prefix sum in place. We model the
histogram as a list of byte counts. -/

/-- Exclusive scan with running accumulator `acc`: the embedding of
`std::exclusive_scan(chunk_info_vec_, chunk_info_vec_ + vector_len,
chunk_info_vec_, 0)`. -/
def exclusiveScan (acc : Nat) : List Nat → List Nat
  | [] => []
  | h :: t => acc :: exclusiveScan (acc + h) t

theorem exclusiveScan_length (acc : Nat) (l : List Nat) :
    (exclusiveScan acc l).length = l.length := by
  induction l generalizing acc with
  | nil => rfl
  | cons h t ih => simp [exclusiveScan, ih]

theorem exclusiveScan_get (acc : Nat) (l : List Nat) (i : Nat) (hi : i < l.length) :
    (exclusiveScan acc l).getD i 0 = acc + ((l.take i).sum) := by
  induction l generalizing acc i with
  | nil => simp at hi
  | cons h t ih =>
    cases i with
    | zero => simp [exclusiveScan]
    | succ j =>
      simp only [exclusiveScan, List.getD_cons_succ, List.take_succ_cons, List.sum_cons]
      rw [ih (acc + h) j (by simpa using hi)]
      omega

theorem exclusiveScan_getLast (acc : Nat) (l : List Nat) (hl : l ≠ []) :
    (exclusiveScan acc l).getD (l.length - 1) 0 = acc + (l.dropLast).sum := by
  have hlen : 0 < l.length := List.length_pos.mpr hl
  rw [exclusiveScan_get acc l (l.length - 1) (by omega)]
  congr 2
  rw [List.dropLast_eq_take]

theorem exclusiveScan_monotone (acc : Nat) (l : List Nat) (i j : Nat)
    (hij : i ≤ j) (hj : j < l.length) :
    (exclusiveScan acc l).getD i 0 ≤ (exclusiveScan acc l).getD j 0 := by
  rw [exclusiveScan_get acc l i (Nat.lt_of_le_of_lt hij hj),
      exclusiveScan_get acc l j hj]
  have : (l.take i).sum ≤ (l.take j).sum := by
    have hj' : j = i + (j - i) := by omega
    rw [hj', List.take_add, List.sum_append]
    omega
  omega

/-- C5: for a per-chunk live-byte histogram `H`, the planner's prefix-sum
pass produces `P` with `P[i] = sum H[0..i)` for every `i` (hence `P` is
monotonically non-decreasing), the total live bytes equal `P` over the last
chunk plus that chunk's own live bytes, and when the code appends the extra
chunk entry (the `vector_len < vector_length_` branch of
`PrepareForCompaction`) the final stored entry equals the total live bytes
of the span. -/
theorem prefix_sum_correct (H : List Nat) (hne : H ≠ []) :
    (∀ i, i < H.length → (exclusiveScan 0 H).getD i 0 = (H.take i).sum) ∧
    (∀ i j, i ≤ j → j < H.length →
        (exclusiveScan 0 H).getD i 0 ≤ (exclusiveScan 0 H).getD j 0) ∧
    (exclusiveScan 0 H).getD (H.length - 1) 0 + H.getD (H.length - 1) 0 = H.sum ∧
    (exclusiveScan 0 (H ++ [0])).getD H.length 0 = H.sum := by
  refine ⟨?_, ?_, ?_, ?_⟩
  · intro i hi
    rw [exclusiveScan_get 0 H i hi]
    omega
  · intro i j hij hj
    exact exclusiveScan_monotone 0 H i j hij hj
  · have hlen : 0 < H.length := List.length_pos.mpr hne
    rw [exclusiveScan_get 0 H (H.length - 1) (by omega)]
    have hlt : H.length - 1 < H.length := by omega
    have hdrop : H.drop (H.length - 1) = [H.getD (H.length - 1) 0] := by
      rw [List.drop_eq_getElem_cons hlt]
      have h2 : H.drop (H.length - 1 + 1) = [] := List.drop_eq_nil_of_le (by omega)
      rw [h2]
      congr 1
      rw [List.getD_eq_getElem H 0 hlt]
    have hsplit : H.sum = (H.take (H.length - 1)).sum + (H.drop (H.length - 1)).sum := by
      conv_lhs => rw [← List.take_append_drop (H.length - 1) H]
      rw [List.sum_append]
    rw [hdrop] at hsplit
    simp only [List.sum_cons, List.sum_nil] at hsplit
    omega
  · have hlen : H.length < (H ++ [0]).length := by simp
    rw [exclusiveScan_get 0 (H ++ [0]) H.length hlen]
    rw [List.take_left]
    omega

/-- Witness for `prefix_sum_correct` at a concrete three-chunk histogram. -/
theorem prefix_sum_correct_witness :
    (∀ i, i < ([3, 5, 7] : List Nat).length →
        (exclusiveScan 0 [3, 5, 7]).getD i 0 = (([3, 5, 7] : List Nat).take i).sum) ∧
    (∀ i j, i ≤ j → j < ([3, 5, 7] : List Nat).length →
        (exclusiveScan 0 [3, 5, 7]).getD i 0 ≤ (exclusiveScan 0 [3, 5, 7]).getD j 0) ∧
    (exclusiveScan 0 [3, 5, 7]).getD (([3, 5, 7] : List Nat).length - 1) 0 +
        ([3, 5, 7] : List Nat).getD (([3, 5, 7] : List Nat).length - 1) 0
      = ([3, 5, 7] : List Nat).sum ∧
    (exclusiveScan 0 ([3, 5, 7] ++ [0])).getD ([3, 5, 7] : List Nat).length 0
      = ([3, 5, 7] : List Nat).sum :=
  prefix_sum_correct [3, 5, 7] (by decide)

/-! ### `MarkCompact::PrepareForCompaction` (planner arithmetic)

The planner converts the per-chunk live-byte histogram `chunk_info_vec_`
into its exclusive prefix sum, recovers the total number of surviving live
bytes, and derives the post-compaction heap end `post_compact_end_`. -/

/-- Result of the planning arithmetic in `PrepareForCompaction`:
the prefix-summed histogram, the total live bytes, and `post_compact_end_`. -/
structure PrepareResult where
  scanned : List Nat
  total : Nat
  postCompactEnd : Nat
  deriving Repr, DecidableEq

/-- Embedding of the arithmetic part of `MarkCompact::PrepareForCompaction`:
`vector_len` is derived from the black-allocations boundary, the histogram
prefix of that length is exclusive-scanned in place (extended by one entry
when room is available, for black-allocation address computation), `total`
is recovered exactly as the code does around `std::exclusive_scan`, and
`post_compact_end_` is the page-aligned end of the surviving bytes. -/
def prepareForCompaction (chunkInfo : List Nat) (spaceBegin blackAllocBegin : Nat) :
    PrepareResult :=
  let vectorLen0 := (blackAllocBegin - spaceBegin) / kOffsetChunkSize
  let vectorLen := if vectorLen0 < chunkInfo.length then vectorLen0 + 1 else vectorLen0
  let total0 := if vectorLen0 < chunkInfo.length then 0 else chunkInfo.getD (vectorLen0 - 1) 0
  let scanned := exclusiveScan 0 (chunkInfo.take vectorLen)
  let total := total0 + scanned.getD (vectorLen - 1) 0
  { scanned := scanned
    total := total
    postCompactEnd := alignUp (spaceBegin + total) gPageSize }

theorem take_sum_eq_sum_of_drop_zero (l : List Nat) (k : Nat)
    (hz : ∀ x ∈ l.drop k, x = 0) : (l.take k).sum = l.sum := by
  conv_rhs => rw [← List.take_append_drop k l]
  rw [List.sum_append]
  have : (l.drop k).sum = 0 := List.sum_eq_zero hz
  omega

theorem sum_le_of_forall_le (l : List Nat) (c : Nat) (h : ∀ x ∈ l, x ≤ c) :
    l.sum ≤ l.length * c := by
  induction l with
  | nil => simp
  | cons a t ih =>
    have ha : a ≤ c := h a (List.mem_cons_self a t)
    have ht := ih (fun x hx => h x (List.mem_cons_of_mem a hx))
    simp only [List.sum_cons, List.length_cons]
    calc a + t.sum ≤ c + t.length * c := by omega
      _ = (t.length + 1) * c := by ring

/-- The `total` recovered by `PrepareForCompaction` equals the sum of the
entire live-byte histogram, provided the entries past `vector_len` are zero
(which the code `DCHECK`s) and `vector_len` does not exceed the vector. -/
theorem prepareForCompaction_total (chunkInfo : List Nat) (spaceBegin blackAllocBegin : Nat)
    (hlen : (blackAllocBegin - spaceBegin) / kOffsetChunkSize ≤ chunkInfo.length)
    (hzero : ∀ x ∈ chunkInfo.drop ((blackAllocBegin - spaceBegin) / kOffsetChunkSize), x = 0) :
    (prepareForCompaction chunkInfo spaceBegin blackAllocBegin).total = chunkInfo.sum := by
  unfold prepareForCompaction
  set vl0 := (blackAllocBegin - spaceBegin) / kOffsetChunkSize with hvl0
  by_cases hcase : vl0 < chunkInfo.length
  · simp only [hcase, if_true]
    have hlen' : vl0 + 1 ≤ chunkInfo.length := hcase
    have htk : (chunkInfo.take (vl0 + 1)).length = vl0 + 1 := by
      simp [List.length_take]; omega
    simp only [Nat.add_sub_cancel]
    rw [exclusiveScan_get 0 (chunkInfo.take (vl0 + 1)) vl0 (by omega)]
    rw [List.take_take]
    have hmin : min vl0 (vl0 + 1) = vl0 := by omega
    rw [hmin]
    have := take_sum_eq_sum_of_drop_zero chunkInfo vl0 hzero
    omega
  · simp only [hcase, if_false]
    have heq : vl0 = chunkInfo.length := by omega
    rcases Nat.eq_zero_or_pos chunkInfo.length with h0 | h0
    · have : chunkInfo = [] := List.length_eq_zero.mp h0
      subst this
      simp [exclusiveScan]
    · have htk : chunkInfo.take vl0 = chunkInfo := by
        rw [heq]; simp
      rw [htk]
      rw [exclusiveScan_get 0 chunkInfo (vl0 - 1) (by omega)]
      -- chunkInfo.sum = (take (len-1)).sum + last entry
      have hsplit : chunkInfo.sum = (chunkInfo.take (vl0 - 1)).sum +
          (chunkInfo.drop (vl0 - 1)).sum := by
        conv_lhs => rw [← List.take_append_drop (vl0 - 1) chunkInfo]
        rw [List.sum_append]
      have hdrop : chunkInfo.drop (vl0 - 1) = [chunkInfo.getD (vl0 - 1) 0] := by
        have hlt : vl0 - 1 < chunkInfo.length := by omega
        rw [List.drop_eq_getElem_cons hlt]
        have : chunkInfo.drop (vl0 - 1 + 1) = [] := by
          apply List.drop_eq_nil_of_le; omega
        rw [this]
        congr 1
        rw [List.getD_eq_getElem chunkInfo 0 hlt]
      rw [hdrop] at hsplit
      simp only [List.sum_cons, List.sum_nil] at hsplit
      omega

/-- C4 (amended, provable part): after planning, `post_compact_end_` is
at most the black-allocations boundary (the pre-compaction high-water mark),
and equals the region base plus total surviving live bytes rounded up to
page granularity. -/
theorem prepareForCompaction_post_end (chunkInfo : List Nat)
    (spaceBegin blackAllocBegin : Nat)
    (hlen : (blackAllocBegin - spaceBegin) / kOffsetChunkSize ≤ chunkInfo.length)
    (hub : ∀ x ∈ chunkInfo, x ≤ kOffsetChunkSize)
    (hzero : ∀ x ∈ chunkInfo.drop ((blackAllocBegin - spaceBegin) / kOffsetChunkSize), x = 0)
    (hbb : gPageSize ∣ blackAllocBegin)
    (hle : spaceBegin ≤ blackAllocBegin) :
    (prepareForCompaction chunkInfo spaceBegin blackAllocBegin).postCompactEnd
        ≤ blackAllocBegin ∧
    (prepareForCompaction chunkInfo spaceBegin blackAllocBegin).postCompactEnd
        = alignUp (spaceBegin + chunkInfo.sum) gPageSize := by
  have htot := prepareForCompaction_total chunkInfo spaceBegin blackAllocBegin hlen hzero
  have hpe : (prepareForCompaction chunkInfo spaceBegin blackAllocBegin).postCompactEnd
      = alignUp (spaceBegin + (prepareForCompaction chunkInfo spaceBegin
          blackAllocBegin).total) gPageSize := rfl
  constructor
  · rw [hpe, htot]
    apply alignUp_le (by decide : 0 < gPageSize) hbb
    -- spaceBegin + sum ≤ blackAllocBegin
    set vl0 := (blackAllocBegin - spaceBegin) / kOffsetChunkSize with hvl0
    have hsum : chunkInfo.sum = (chunkInfo.take vl0).sum :=
      (take_sum_eq_sum_of_drop_zero chunkInfo vl0 hzero).symm
    have hsum2 : (chunkInfo.take vl0).sum ≤ (chunkInfo.take vl0).length * kOffsetChunkSize :=
      sum_le_of_forall_le _ _ (fun x hx => hub x (List.mem_of_mem_take hx))
    have hlt : (chunkInfo.take vl0).length ≤ vl0 := by
      simp [List.length_take]
    have hvl : vl0 * kOffsetChunkSize ≤ blackAllocBegin - spaceBegin :=
      Nat.div_mul_le_self _ _
    have := Nat.mul_le_mul_right kOffsetChunkSize hlt
    omega
  · rw [hpe, htot]

/-- C4 as literally stated fails on the code: with a page size of 4096,
region base 0, black-allocations boundary 4096 and a single 64-byte live
object, the planner sets `post_compact_end_` to 4096 (page-aligned), while
the region base plus total surviving live bytes is 64. The `≤` part of the
claim holds. -/
theorem prepareForCompaction_exact_end_cex :
    (prepareForCompaction [64, 0, 0, 0, 0, 0, 0, 0] 0 4096).postCompactEnd = 4096 ∧
    0 + ([64, 0, 0, 0, 0, 0, 0, 0] : List Nat).sum = 64 ∧
    (prepareForCompaction [64, 0, 0, 0, 0, 0, 0, 0] 0 4096).postCompactEnd ≠
      0 + ([64, 0, 0, 0, 0, 0, 0, 0] : List Nat).sum := by
  refine ⟨?_, by decide, ?_⟩ <;> decide

/-- Witness for `prepareForCompaction_post_end`: an evaluation at a concrete
heap shape, discharging every hypothesis. -/
theorem prepareForCompaction_post_end_witness :
    (prepareForCompaction [64, 0, 0, 0, 0, 0, 0, 0] 0 4096).postCompactEnd ≤ 4096 ∧
    (prepareForCompaction [64, 0, 0, 0, 0, 0, 0, 0] 0 4096).postCompactEnd
      = alignUp (0 + ([64, 0, 0, 0, 0, 0, 0, 0] : List Nat).sum) gPageSize :=
  prepareForCompaction_post_end [64, 0, 0, 0, 0, 0, 0, 0] 0 4096
    (by decide) (by decide) (by decide) (by decide) (by decide)

/-! ### Per-destination-page state machine

`moving_pages_status_[page_idx]` holds one atomically updated status per
destination page. The states and every store / compare-and-swap the code
performs on a page's status are enumerated below; each constructor of
`PageEvent` names one code site. -/

/-- Lifecycle states of a destination page (`PageState`). -/
inductive PageState
  | kUnprocessed
  | kProcessing
  | kProcessed
  | kProcessingAndMapping
  | kMutatorProcessing
  | kProcessedAndMapping
  | kProcessedAndMapped
  deriving Repr, DecidableEq, Fintype

/-- Atomic operations the code performs on a single page's status word.
Each constructor corresponds to one store or compare-and-swap site in
`mark_compact.cc`; the three `…Win` events additionally perform the page's
compaction work (`CompactPage` / `SlideBlackPage`), which in the code is
invoked only inside the corresponding CAS-success branch. -/
inductive PageEvent
  /-- winning CAS `kUnprocessed → kProcessingAndMapping` in
  `DoPageCompactionWithStateChange` (`map_immediately` true), followed by
  the compaction function. -/
  | gcWinMapping
  /-- winning CAS `kUnprocessed → kProcessing` in
  `DoPageCompactionWithStateChange` (`map_immediately` false), followed by
  the compaction function. -/
  | gcWinProcessing
  /-- losing CAS (in `DoPageCompactionWithStateChange` or
  `ConcurrentlyProcessMovingPage`): no store, no compaction work. -/
  | casLose
  /-- store `kProcessedAndMapped` after `CopyIoctl` in `kCopyMode` with
  `map_immediately`. -/
  | gcMappedStore
  /-- store `kProcessed` (with the source-page offset payload) in
  `kCopyMode` without `map_immediately`. -/
  | gcProcessedStore
  /-- CAS `kProcessing → kProcessed` in `kMinorFaultMode`. -/
  | gcMinorProcessedCas
  /-- CAS `kProcessed → kProcessedAndMapping` in `MapMovingSpacePages` /
  `MapProcessedPages`. -/
  | mapClaim
  /-- store `kProcessedAndMapped` once the map ioctl has mapped the page. -/
  | mapDone
  /-- partial-failure rewind in `MapProcessedPages`: store `kProcessed` on a
  claimed page the kernel did not map. -/
  | mapRewind
  /-- winning mutator CAS `kUnprocessed → kMutatorProcessing` in
  `ConcurrentlyProcessMovingPage`, followed by `CompactPage` /
  `SlideBlackPage`. -/
  | mutatorWin
  /-- mutator store `kProcessedAndMapping` after finishing its compaction. -/
  | mutatorProcessedStore
  /-- mutator store `kProcessedAndMapped` after its `CopyIoctl`. -/
  | mutatorMappedStore
  /-- empty-page (null first-object) path: CAS
  `kUnprocessed → kProcessedAndMapping`; no compaction work. -/
  | emptyClaim
  /-- empty-page path: store `kProcessedAndMapped` after `ZeropageIoctl`. -/
  | emptyDone
  deriving Repr, DecidableEq, Fintype

/-- Does this event perform the page's compaction work
(`CompactPage` / `SlideBlackPage`)? In the code the compaction call sits
inside the CAS-success branch of exactly these three events. -/
def PageEvent.isCompactionWork : PageEvent → Bool
  | .gcWinMapping => true
  | .gcWinProcessing => true
  | .mutatorWin => true
  | _ => false

/-- One atomic step on a page's status word: the precondition of each event
is the state the code's CAS expects, or the state the code is known to be in
when it performs an unconditional store (justified there by "no other thread
can modify the status at this point"). -/
def pageStep : PageState → PageEvent → Option PageState
  | .kUnprocessed, .gcWinMapping => some .kProcessingAndMapping
  | .kUnprocessed, .gcWinProcessing => some .kProcessing
  | s, .casLose => if s = .kUnprocessed then none else some s
  | .kProcessingAndMapping, .gcMappedStore => some .kProcessedAndMapped
  | .kProcessing, .gcProcessedStore => some .kProcessed
  | .kProcessing, .gcMinorProcessedCas => some .kProcessed
  | .kProcessed, .mapClaim => some .kProcessedAndMapping
  | .kProcessedAndMapping, .mapDone => some .kProcessedAndMapped
  | .kProcessedAndMapping, .mapRewind => some .kProcessed
  | .kUnprocessed, .mutatorWin => some .kMutatorProcessing
  | .kMutatorProcessing, .mutatorProcessedStore => some .kProcessedAndMapping
  | .kProcessedAndMapping, .mutatorMappedStore => some .kProcessedAndMapped
  | .kUnprocessed, .emptyClaim => some .kProcessedAndMapping
  | .kProcessedAndMapping, .emptyDone => some .kProcessedAndMapped
  | _, _ => none

/-- Run a sequence of events on one page's status word. -/
def runPage : PageState → List PageEvent → Option PageState
  | s, [] => some s
  | s, e :: es =>
    match pageStep s e with
    | none => none
    | some s' => runPage s' es

/-- Number of times the page's compaction work is performed in an event
sequence. -/
def countCompactions (es : List PageEvent) : Nat :=
  es.countP (fun e => e.isCompactionWork)

theorem pageStep_target_ne_unprocessed :
    ∀ s e s', pageStep s e = some s' → s' ≠ PageState.kUnprocessed := by
  decide

theorem pageStep_compaction_from_unprocessed :
    ∀ s e s', pageStep s e = some s' → e.isCompactionWork = true →
      s = PageState.kUnprocessed := by
  decide

theorem runPage_no_compaction_of_ne_unprocessed (es : List PageEvent) :
    ∀ s s', s ≠ PageState.kUnprocessed → runPage s es = some s' →
      countCompactions es = 0 := by
  induction es with
  | nil => intro s s' _ _; rfl
  | cons e es ih =>
    intro s s' hs hrun
    unfold runPage at hrun
    cases hstep : pageStep s e with
    | none => rw [hstep] at hrun; cases hrun
    | some s1 =>
      rw [hstep] at hrun
      have hnotc : e.isCompactionWork = false := by
        by_contra hc
        have := pageStep_compaction_from_unprocessed s e s1 hstep
          (by simpa using hc)
        exact hs this
      have hs1 := pageStep_target_ne_unprocessed s e s1 hstep
      have := ih s1 s' hs1 hrun
      unfold countCompactions at *
      simp [List.countP_cons, hnotc, this]

/-- C1: in every interleaving of the code's per-page status operations that
starts from `kUnprocessed`, the compaction work for the page is performed at
most once — only the party whose CAS moves the status out of `kUnprocessed`
compacts, and a party whose CAS loses performs no compaction. -/
theorem page_compaction_at_most_once (es : List PageEvent) (s' : PageState)
    (hrun : runPage PageState.kUnprocessed es = some s') :
    countCompactions es ≤ 1 := by
  induction es with
  | nil => simp [countCompactions]
  | cons e es _ =>
    unfold runPage at hrun
    cases hstep : pageStep PageState.kUnprocessed e with
    | none => rw [hstep] at hrun; cases hrun
    | some s1 =>
      rw [hstep] at hrun
      have hs1 := pageStep_target_ne_unprocessed _ e s1 hstep
      have hrest := runPage_no_compaction_of_ne_unprocessed es s1 s' hs1 hrun
      unfold countCompactions at *
      by_cases hc : e.isCompactionWork <;> simp [List.countP_cons, hc, hrest]

/-- Witness for `page_compaction_at_most_once`: a concrete race in which a
mutator wins the CAS, compacts and maps the page, and the collector thread
then loses its CAS. -/
theorem page_compaction_at_most_once_witness :
    countCompactions [PageEvent.mutatorWin, PageEvent.mutatorProcessedStore,
      PageEvent.mutatorMappedStore, PageEvent.casLose] ≤ 1 :=
  page_compaction_at_most_once
    [PageEvent.mutatorWin, PageEvent.mutatorProcessedStore,
      PageEvent.mutatorMappedStore, PageEvent.casLose]
    PageState.kProcessedAndMapped (by decide)

/-- Position of a state in the lifecycle partial order stated by the spec:
`Unprocessed → {Processing | MutatorProcessing} → ProcessingAndMapping →
Processed → ProcessedAndMapping → ProcessedAndMapped`. -/
def lifecycleRank : PageState → Nat
  | .kUnprocessed => 0
  | .kProcessing => 1
  | .kMutatorProcessing => 1
  | .kProcessingAndMapping => 2
  | .kProcessed => 3
  | .kProcessedAndMapping => 4
  | .kProcessedAndMapped => 5

/-- C2 fails as stated: the partial-failure rewind in `MapProcessedPages`
stores `kProcessed` on a page already published as `kProcessedAndMapping`,
moving the state backwards in the lifecycle order; the backward step is
reachable from `kUnprocessed` through code-performed transitions. -/
theorem page_state_monotone_cex :
    pageStep PageState.kProcessedAndMapping PageEvent.mapRewind
        = some PageState.kProcessed ∧
    lifecycleRank PageState.kProcessed
        < lifecycleRank PageState.kProcessedAndMapping ∧
    runPage PageState.kUnprocessed
        [PageEvent.gcWinProcessing, PageEvent.gcMinorProcessedCas,
         PageEvent.mapClaim, PageEvent.mapRewind]
      = some PageState.kProcessed := by
  decide

/-- C2 (amended): every status transition the code performs moves the state
strictly forward in the lifecycle order, with the single exception of the
publish-failure rewind in `MapProcessedPages` (`kProcessedAndMapping` back
to `kProcessed`); losing CASes store nothing. -/
theorem page_state_strictly_forward (s : PageState) (e : PageEvent) (s' : PageState)
    (hstep : pageStep s e = some s')
    (hrw : e ≠ PageEvent.mapRewind) (hlose : e ≠ PageEvent.casLose) :
    lifecycleRank s < lifecycleRank s' := by
  revert s e s' hstep hrw hlose
  decide

/-- Witness for `page_state_strictly_forward` at the mutator's winning CAS. -/
theorem page_state_strictly_forward_witness :
    lifecycleRank PageState.kUnprocessed
      < lifecycleRank PageState.kMutatorProcessing :=
  page_state_strictly_forward PageState.kUnprocessed PageEvent.mutatorWin
    PageState.kMutatorProcessing (by decide) (by decide) (by decide)

/-! ### Compaction order of `MarkCompact::CompactMovingSpace` (C6)

`CompactMovingSpace` iterates `idx` downward: first over the black-allocation
pages (skipping pages with no first object), then over the pages of the
pre-pause portion. Mutator faults can trigger `ConcurrentlyProcessMovingPage`
on any page at any moment. -/

/-- Destination-page indices in the order `CompactMovingSpace` attempts
them: the black-allocation loop walks `idx` from
`moving_first_objs_count_ + black_page_count_ - 1` down to
`moving_first_objs_count_`, attempting only pages whose first object is
non-null; the second loop walks the remaining indices down to 0. -/
def compactMovingSpaceOrder (firstObjPresent : Nat → Bool)
    (movingFirstObjsCount blackPageCount : Nat) : List Nat :=
  (((List.range blackPageCount).reverse.map (· + movingFirstObjsCount)).filter
      firstObjPresent)
    ++ (List.range movingFirstObjsCount).reverse

/-- Global state of the interleaving model used for the compaction-order
claim: the per-page status array, the indices the collector thread's eager
loop has yet to attempt, and the log of compaction events
`(performed by a faulting mutator?, page index)` in the order the
compaction work was performed. -/
structure SysState where
  pages : List PageState
  gcQueue : List Nat
  log : List (Bool × Nat)
  deriving Repr, DecidableEq

/-- Events of the interleaving model. -/
inductive SysEvent
  /-- the collector thread's loop attempts its next page
  (`DoPageCompactionWithStateChange`; the whole compact-and-publish of a won
  page is collapsed into one atomic event, which preserves the order of
  `CompactPage` invocations). -/
  | gcAttempt
  /-- a mutator faults on page `i` and runs
  `ConcurrentlyProcessMovingPage`. -/
  | mutatorFault (i : Nat)
  deriving Repr, DecidableEq

/-- One step of the interleaving model. -/
def sysStep (firstObjPresent : Nat → Bool) (st : SysState) (e : SysEvent) :
    Option SysState :=
  match e with
  | .gcAttempt =>
    match st.gcQueue with
    | [] => none
    | i :: rest =>
      if st.pages.getD i PageState.kUnprocessed = PageState.kUnprocessed then
        some { pages := st.pages.set i PageState.kProcessedAndMapped,
               gcQueue := rest,
               log := st.log ++ [(false, i)] }
      else
        some { st with gcQueue := rest }
  | .mutatorFault i =>
    if i < st.pages.length ∧ firstObjPresent i then
      if st.pages.getD i PageState.kUnprocessed = PageState.kUnprocessed then
        some { pages := st.pages.set i PageState.kProcessedAndMapped,
               gcQueue := st.gcQueue,
               log := st.log ++ [(true, i)] }
      else
        some st
    else
      none

/-- Run a sequence of events of the interleaving model. -/
def runSys (firstObjPresent : Nat → Bool) : SysState → List SysEvent → Option SysState
  | st, [] => some st
  | st, e :: es =>
    match sysStep firstObjPresent st e with
    | none => none
    | some st' => runSys firstObjPresent st' es

/-- Initial state of a collection cycle with the given page population. -/
def initSys (firstObjPresent : Nat → Bool) (movingFirstObjsCount blackPageCount : Nat) :
    SysState :=
  { pages := List.replicate (movingFirstObjsCount + blackPageCount)
      PageState.kUnprocessed,
    gcQueue := compactMovingSpaceOrder firstObjPresent movingFirstObjsCount
      blackPageCount,
    log := [] }

/-- C6 fails as stated: with two destination pages, a mutator fault can
compact page 0 before the collector thread compacts page 1, so it is not
true that for any two pages compacted in a cycle the higher-indexed one is
compacted no later than the lower-indexed one. -/
theorem compaction_descending_order_cex :
    ¬ (∀ (es : List SysEvent) (st' : SysState),
        runSys (fun _ => true) (initSys (fun _ => true) 2 0) es = some st' →
        st'.log.Pairwise (fun a b => b.2 ≤ a.2)) := by
  intro h
  have h2 := h [SysEvent.mutatorFault 0, SysEvent.gcAttempt]
      { pages := [PageState.kProcessedAndMapped, PageState.kProcessedAndMapped],
        gcQueue := [0],
        log := [(true, 0), (false, 1)] }
      (by decide)
  revert h2
  decide

/-- C6 (amended): the collector thread's eager loop in `CompactMovingSpace`
attempts page compactions in strictly descending index order; only
fault-triggered compactions by other threads may interleave out of that
order. -/
theorem compactMovingSpaceOrder_descending (firstObjPresent : Nat → Bool)
    (movingFirstObjsCount blackPageCount : Nat) :
    (compactMovingSpaceOrder firstObjPresent movingFirstObjsCount
      blackPageCount).Pairwise (· > ·) := by
  unfold compactMovingSpaceOrder
  rw [List.pairwise_append]
  have hrev : ∀ n : Nat, ((List.range n).reverse).Pairwise (· > ·) := by
    intro n
    rw [List.pairwise_reverse]
    simpa using List.pairwise_lt_range n
  refine ⟨?_, hrev _, ?_⟩
  · apply List.Pairwise.filter
    rw [List.pairwise_map]
    exact (hrev blackPageCount).imp (by intro a b hab; omega)
  · intro a ha b hb
    have ha2 := List.mem_of_mem_filter ha
    obtain ⟨x, hx, rfl⟩ := List.mem_map.mp ha2
    have hb' : b < movingFirstObjsCount := List.mem_range.mp (List.mem_reverse.mp hb)
    omega

/-! ### `MarkCompact::SigbusHandler` (C10)

The SIGBUS entry point decides whether a fault belongs to the collector:
it refuses non-address-error faults, dispatches faults inside the moving
space or a registered linear-alloc space, and after compaction is done
merely reports whether the address was one of ours. -/

/-- Linux `si_code` value `BUS_ADRERR`, the code userfaultfd raises. -/
def kBusAdrerr : Int := 2

/-- Is `addr` within `[b, e)`? Embedding of `MarkCompact::HasAddress` for
the moving space and of the `data.begin_ <= page && page < data.end_` tests
for linear-alloc spaces. Modelled from the spec for the moving-space case
(the helper lives in the header): membership of the address in the space's
contiguous range. -/
def inRange (b e addr : Nat) : Bool := decide (b ≤ addr) && decide (addr < e)

/-- Outcome of `SigbusHandler`: its boolean return value, and whether it
invoked any fault-processing routine
(`ConcurrentlyProcessMovingPage` / `ConcurrentlyProcessLinearAllocPage`). -/
structure SigbusResult where
  handled : Bool
  invokedProcessing : Bool
  deriving Repr, DecidableEq

/-- Embedding of `MarkCompact::SigbusHandler`: `compactionDone` is the
done-bit of `sigbus_in_progress_count_` observed by `ScopedInProgressCount`;
`linearSpaces` lists the `(begin_, end_)` ranges of the registered
linear-alloc spaces. -/
def sigbusHandler (siCode : Int) (faultAddr movingBegin movingEnd : Nat)
    (linearSpaces : List (Nat × Nat)) (compactionDone : Bool) : SigbusResult :=
  if siCode ≠ kBusAdrerr then
    { handled := false, invokedProcessing := false }
  else
    let faultPage := alignDown faultAddr gPageSize
    if compactionDone then
      { handled := inRange movingBegin movingEnd faultPage ||
          linearSpaces.any (fun d => inRange d.1 d.2 faultPage),
        invokedProcessing := false }
    else if inRange movingBegin movingEnd faultPage then
      { handled := true, invokedProcessing := true }
    else if linearSpaces.any (fun d => inRange d.1 d.2 faultPage) then
      { handled := true, invokedProcessing := true }
    else
      { handled := false, invokedProcessing := false }

/-- C10: the fault handler claims only faults it can own — a fault that is
not an address error, or whose page-aligned address lies outside the moving
space and every linear-alloc space, is not handled; and once compaction is
finished a fault on an address inside those spaces is reported handled with
no compaction work invoked. -/
theorem sigbusHandler_ownership (siCode : Int)
    (faultAddr movingBegin movingEnd : Nat)
    (linearSpaces : List (Nat × Nat)) (compactionDone : Bool) :
    (siCode ≠ kBusAdrerr →
      sigbusHandler siCode faultAddr movingBegin movingEnd linearSpaces
          compactionDone
        = { handled := false, invokedProcessing := false }) ∧
    (inRange movingBegin movingEnd (alignDown faultAddr gPageSize) = false →
      linearSpaces.any
          (fun d => inRange d.1 d.2 (alignDown faultAddr gPageSize)) = false →
      (sigbusHandler siCode faultAddr movingBegin movingEnd linearSpaces
          compactionDone).handled = false) ∧
    (compactionDone = true → siCode = kBusAdrerr →
      (sigbusHandler siCode faultAddr movingBegin movingEnd linearSpaces
            compactionDone).handled
        = (inRange movingBegin movingEnd (alignDown faultAddr gPageSize) ||
            linearSpaces.any
              (fun d => inRange d.1 d.2 (alignDown faultAddr gPageSize))) ∧
      (sigbusHandler siCode faultAddr movingBegin movingEnd linearSpaces
          compactionDone).invokedProcessing = false) := by
  refine ⟨?_, ?_, ?_⟩
  · intro hcode
    simp [sigbusHandler, hcode]
  · intro hmov hlin
    unfold sigbusHandler
    by_cases hcode : siCode ≠ kBusAdrerr
    · simp [hcode]
    · simp only [hcode, if_false]
      cases compactionDone <;> simp [hmov, hlin]
  · intro hdone hcode
    subst hdone hcode
    simp [sigbusHandler]

/-- Witness for `sigbusHandler_ownership`: a spurious post-compaction fault
inside a linear-alloc space is reported handled without processing; the
other two components are instantiated with their hypotheses discharged. -/
theorem sigbusHandler_ownership_witness :
    (sigbusHandler 1 5000 8192 16384 [(0, 4096)] false
      = { handled := false, invokedProcessing := false }) ∧
    ((sigbusHandler 2 5000 8192 16384 [(0, 4096)] false).handled = false) ∧
    ((sigbusHandler 2 1000 8192 16384 [(0, 4096)] true).handled = true ∧
      (sigbusHandler 2 1000 8192 16384 [(0, 4096)] true).invokedProcessing
        = false) := by
  refine ⟨?_, ?_, ?_, ?_⟩
  · exact (sigbusHandler_ownership 1 5000 8192 16384 [(0, 4096)] false).1
      (by decide)
  · exact (sigbusHandler_ownership 2 5000 8192 16384 [(0, 4096)] false).2.1
      (by decide) (by decide)
  · have h := ((sigbusHandler_ownership 2 1000 8192 16384 [(0, 4096)] true).2.2
      rfl rfl).1
    rw [h]; decide
  · exact ((sigbusHandler_ownership 2 1000 8192 16384 [(0, 4096)] true).2.2
      rfl rfl).2

/-! ### Empty-page fault path of `ConcurrentlyProcessMovingPage` (C7)

A fault on a destination page whose first-object descriptor is null takes
the zero-page branch: it claims the run of adjacent `kUnprocessed` pages up
to the end of the faulting thread's TLAB in one CAS loop, publishes the
whole run with a single `ZeropageIoctl`, and marks every claimed page
`kProcessedAndMapped`. No `CompactPage`/`SlideBlackPage` is invoked. -/

/-- Length of the run of consecutive pages in state `target` starting at
`startIdx`, limited to `fuel` pages: the number of CAS wins of the
claim loops (each CAS succeeds exactly when the observed state is the
expected one, and the loop breaks at the first failure). -/
def runLenOfState (target : PageState) (states : Nat → PageState) :
    Nat → Nat → Nat
  | _, 0 => 0
  | startIdx, fuel + 1 =>
    if states startIdx = target then
      1 + runLenOfState target states (startIdx + 1) fuel
    else 0

theorem runLenOfState_le (target : PageState) (states : Nat → PageState)
    (startIdx fuel : Nat) :
    runLenOfState target states startIdx fuel ≤ fuel := by
  induction fuel generalizing startIdx with
  | zero => simp [runLenOfState]
  | succ n ih =>
    unfold runLenOfState
    by_cases h : states startIdx = target
    · simp only [h, if_true]
      have := ih (startIdx + 1)
      omega
    · simp [h]

theorem runLenOfState_mem (target : PageState) (states : Nat → PageState)
    (startIdx fuel k : Nat)
    (hk : k < runLenOfState target states startIdx fuel) :
    states (startIdx + k) = target := by
  induction fuel generalizing startIdx k with
  | zero => simp [runLenOfState] at hk
  | succ n ih =>
    unfold runLenOfState at hk
    by_cases h : states startIdx = target
    · simp only [h, if_true] at hk
      cases k with
      | zero => simpa using h
      | succ j =>
        have := ih (startIdx + 1) j (by omega)
        simpa [Nat.add_assoc, Nat.add_comm 1 j] using this
    · simp [h] at hk

theorem runLenOfState_maximal (target : PageState) (states : Nat → PageState)
    (startIdx fuel : Nat)
    (hlt : runLenOfState target states startIdx fuel < fuel) :
    states (startIdx + runLenOfState target states startIdx fuel) ≠ target := by
  induction fuel generalizing startIdx with
  | zero => simp [runLenOfState] at hlt
  | succ n ih =>
    unfold runLenOfState at hlt ⊢
    by_cases h : states startIdx = target
    · simp only [h, if_true] at hlt ⊢
      have := ih (startIdx + 1) (by omega)
      simpa [Nat.add_assoc, Nat.add_comm 1 (runLenOfState target states (startIdx + 1) n)]
        using this
    · simp [h]

/-- End address used by the empty-page branch: the page-aligned TLAB end if
the fault page lies inside the faulting thread's TLAB, otherwise just the
next page (`ConcurrentlyProcessMovingPage`, null-first-object case). -/
def emptyRunEnd (tlabStart tlabEnd faultPage : Nat) : Nat :=
  let e := alignDown tlabEnd gPageSize
  if faultPage < tlabStart ∨ faultPage ≥ e then faultPage + gPageSize else e

/-- Outcome of the empty-page branch: final page states, the zero-page
publish calls issued as `(first page index, length in pages)` pairs, and
the number of `CompactPage`/`SlideBlackPage` invocations. -/
structure EmptyPageResult where
  states : Nat → PageState
  publishCalls : List (Nat × Nat)
  compactions : Nat

/-- Embedding of the null-first-object branch of
`ConcurrentlyProcessMovingPage`: claim the run of `kUnprocessed` pages in
`[pageIdx, endIdx)` via CAS to `kProcessedAndMapping`, then (if any page
was claimed) install zero pages for the whole run with one `ZeropageIoctl`
and store `kProcessedAndMapped` on each claimed page. -/
def processEmptyMovingPages (states : Nat → PageState) (pageIdx endIdx : Nat) :
    EmptyPageResult :=
  let n := runLenOfState PageState.kUnprocessed states pageIdx (endIdx - pageIdx)
  if n = 0 then
    { states := states, publishCalls := [], compactions := 0 }
  else
    { states := fun i =>
        if pageIdx ≤ i ∧ i < pageIdx + n then PageState.kProcessedAndMapped
        else states i,
      publishCalls := [(pageIdx, n)],
      compactions := 0 }

/-- C7: a fault on a destination page with a null first-object descriptor
performs no compaction work; it claims the maximal run of adjacent
`kUnprocessed` pages starting at the fault page (within the TLAB-derived
window), publishes that run with exactly one zero-page call, leaves every
claimed page in the terminal `kProcessedAndMapped` state, and touches no
other page's state. -/
theorem empty_page_zero_publish (states : Nat → PageState)
    (tlabStart tlabEnd faultPage pageIdx : Nat)
    (hal : gPageSize ∣ faultPage)
    (hun : states pageIdx = PageState.kUnprocessed) :
    let endIdx := pageIdx +
      (emptyRunEnd tlabStart tlabEnd faultPage - faultPage) / gPageSize
    let n := runLenOfState PageState.kUnprocessed states pageIdx (endIdx - pageIdx)
    let r := processEmptyMovingPages states pageIdx endIdx
    r.compactions = 0 ∧
    1 ≤ n ∧
    r.publishCalls = [(pageIdx, n)] ∧
    (∀ k, k < n → states (pageIdx + k) = PageState.kUnprocessed) ∧
    (n < endIdx - pageIdx → states (pageIdx + n) ≠ PageState.kUnprocessed) ∧
    (∀ k, k < n → r.states (pageIdx + k) = PageState.kProcessedAndMapped) ∧
    (∀ i, i < pageIdx ∨ pageIdx + n ≤ i → r.states i = states i) := by
  intro endIdx n r
  have hend : gPageSize ≤ emptyRunEnd tlabStart tlabEnd faultPage - faultPage := by
    unfold emptyRunEnd
    by_cases hc : faultPage < tlabStart ∨ faultPage ≥ alignDown tlabEnd gPageSize
    · simp only [hc, if_true]
      omega
    · simp only [hc, if_false]
      push_neg at hc
      obtain ⟨h1, h2⟩ := hc
      -- both faultPage and the aligned TLAB end are page-aligned and
      -- faultPage < alignedEnd, so they differ by at least a page
      obtain ⟨a, ha⟩ := hal
      have hd : alignDown tlabEnd gPageSize = gPageSize * (tlabEnd / gPageSize) := by
        unfold alignDown
        exact Nat.mul_comm _ _
      rw [hd] at h2 ⊢
      rw [ha] at h2 ⊢
      have hlt : a < tlabEnd / gPageSize := by
        by_contra hge
        push_neg at hge
        have := Nat.mul_le_mul_left gPageSize hge
        omega
      have h3 : gPageSize * a + gPageSize ≤ gPageSize * (tlabEnd / gPageSize) := by
        have h5 := Nat.mul_le_mul_left gPageSize (Nat.succ_le_of_lt hlt)
        have h6 : gPageSize * Nat.succ a = gPageSize * a + gPageSize := by
          simp [Nat.mul_succ]
        omega
      omega
  have hfuel : 1 ≤ endIdx - pageIdx := by
    show 1 ≤ pageIdx + (emptyRunEnd tlabStart tlabEnd faultPage - faultPage) / gPageSize - pageIdx
    have : 1 ≤ (emptyRunEnd tlabStart tlabEnd faultPage - faultPage) / gPageSize :=
      Nat.one_le_div_iff (by decide) |>.mpr hend
    omega
  have hn1 : 1 ≤ n := by
    show 1 ≤ runLenOfState PageState.kUnprocessed states pageIdx (endIdx - pageIdx)
    rcases Nat.exists_eq_add_of_le hfuel with ⟨m, hm⟩
    rw [hm, Nat.add_comm 1 m]
    unfold runLenOfState
    simp [hun]
  have hnz : ¬ (runLenOfState PageState.kUnprocessed states pageIdx (endIdx - pageIdx) = 0) := by
    omega
  have hrs : r.states = fun i =>
      if pageIdx ≤ i ∧ i < pageIdx + n then PageState.kProcessedAndMapped
      else states i := by
    show (processEmptyMovingPages states pageIdx endIdx).states = _
    unfold processEmptyMovingPages
    simp only [hnz, if_false]
  have hrp : r.publishCalls = [(pageIdx, n)] := by
    show (processEmptyMovingPages states pageIdx endIdx).publishCalls = _
    unfold processEmptyMovingPages
    simp only [hnz, if_false]
  have hrc : r.compactions = 0 := by
    show (processEmptyMovingPages states pageIdx endIdx).compactions = 0
    unfold processEmptyMovingPages
    simp only [hnz, if_false]
  refine ⟨hrc, hn1, hrp, ?_, ?_, ?_, ?_⟩
  · intro k hk
    exact runLenOfState_mem _ states pageIdx _ k hk
  · intro hlt
    exact runLenOfState_maximal _ states pageIdx _ hlt
  · intro k hk
    rw [hrs]
    simp only
    rw [if_pos (by omega)]
  · intro i hi
    rw [hrs]
    simp only
    rw [if_neg (by omega)]

/-- Witness for `empty_page_zero_publish`: a fault at address 8192 (page
index 2) inside a TLAB reaching to 16384, with pages 2 and 3 unprocessed.
The run of two pages is published with one zero-page call. -/
theorem empty_page_zero_publish_witness :
    let states := fun i => if 2 ≤ i ∧ i ≤ 3 then PageState.kUnprocessed
      else PageState.kProcessedAndMapped
    let endIdx := 2 + (emptyRunEnd 8192 16384 8192 - 8192) / gPageSize
    let n := runLenOfState PageState.kUnprocessed states 2 (endIdx - 2)
    let r := processEmptyMovingPages states 2 endIdx
    r.compactions = 0 ∧
    1 ≤ n ∧
    r.publishCalls = [(2, n)] ∧
    (∀ k, k < n → states (2 + k) = PageState.kUnprocessed) ∧
    (n < endIdx - 2 → states (2 + n) ≠ PageState.kUnprocessed) ∧
    (∀ k, k < n → r.states (2 + k) = PageState.kProcessedAndMapped) ∧
    (∀ i, i < 2 ∨ 2 + n ≤ i → r.states i = states i) :=
  empty_page_zero_publish
    (fun i => if 2 ≤ i ∧ i ≤ 3 then PageState.kUnprocessed
      else PageState.kProcessedAndMapped)
    8192 16384 8192 2 (by decide) (by decide)

/-! ### `MarkCompact::MapProcessedPages` (C3)

`MapProcessedPages<kFirstPageMapping=true>` claims the contiguous run of
`kProcessed` pages after the faulted page via CAS to
`kProcessedAndMapping`, then publishes the whole run (the faulted first
page included) with a single `UFFDIO_CONTINUE`. When the ioctl acts on
fewer bytes than requested (`EAGAIN`), the code rewinds the states of the
unmapped suffix back to `kProcessed` and wakes waiters for exactly that
suffix. The kernel's answer is the `ContinueOutcome` oracle, constrained
exactly as the code's `DCHECK`s constrain `uffd_continue.mapped`. -/

/-- Result of the `UFFDIO_CONTINUE` ioctl as the code distinguishes it:
complete success, partial progress aborted with `EAGAIN` after `mapped`
bytes, or `ENOENT` (nothing mapped). -/
inductive ContinueOutcome
  | success
  | eagain (mapped : Nat)
  | enoent
  deriving Repr, DecidableEq

/-- Number of pages the claim loop of `MapProcessedPages` moves from
`kProcessed` to `kProcessedAndMapping` (the loop stops at the first CAS
failure or at `arr_len`). -/
def mapProcessedClaimCount (states : Nat → PageState) (arrIdx arrLen : Nat) : Nat :=
  runLenOfState PageState.kProcessed states (arrIdx + 1) (arrLen - (arrIdx + 1))

/-- Byte length passed to the `UFFDIO_CONTINUE` ioctl: the faulted first
page plus the claimed run. -/
def mapProcessedRequestLen (states : Nat → PageState) (arrIdx arrLen : Nat) : Nat :=
  (mapProcessedClaimCount states arrIdx arrLen + 1) * gPageSize

/-- Outcome of `MapProcessedPages`: final page states, the byte length
requested from the ioctl, the bytes actually mapped, and the `UFFDIO_WAKE`
range issued (as byte offset from the first page and byte length), if any. -/
structure MapProcessedResult where
  states : Nat → PageState
  requestedLen : Nat
  mappedLen : Nat
  wake : Option (Nat × Nat)

/-- Embedding of `MapProcessedPages<kFirstPageMapping=true>`: claim the run
of `kProcessed` pages following `arrIdx`, issue the map ioctl over the run
plus the first page, and handle the three ioctl outcomes — on `EAGAIN`
rewind the unmapped suffix to `kProcessed` and wake it; with
`use_uffd_sigbus_` additionally mark the mapped prefix
`kProcessedAndMapped`. -/
def mapProcessedPages (states : Nat → PageState) (arrIdx arrLen : Nat)
    (useSigbus : Bool) (outcome : ContinueOutcome) : MapProcessedResult :=
  let n := mapProcessedClaimCount states arrIdx arrLen
  let numPages := n + 1
  let len := mapProcessedRequestLen states arrIdx arrLen
  let claimStates : Nat → PageState := fun i =>
    if arrIdx + 1 ≤ i ∧ i < arrIdx + 1 + n then PageState.kProcessedAndMapping
    else states i
  match outcome with
  | .success =>
    { states :=
        if useSigbus then
          fun i =>
            if arrIdx ≤ i ∧ i < arrIdx + numPages then PageState.kProcessedAndMapped
            else claimStates i
        else claimStates,
      requestedLen := len, mappedLen := len, wake := none }
  | .eagain mapped =>
    let mp := mapped / gPageSize
    let rewindStates : Nat → PageState := fun i =>
      if arrIdx + mp ≤ i ∧ i < arrIdx + numPages then PageState.kProcessed
      else claimStates i
    { states :=
        if useSigbus then
          fun i =>
            if arrIdx ≤ i ∧ i < arrIdx + mp then PageState.kProcessedAndMapped
            else rewindStates i
        else rewindStates,
      requestedLen := len, mappedLen := mapped,
      wake := some (mapped, len - mapped) }
  | .enoent =>
    { states := claimStates, requestedLen := len, mappedLen := 0, wake := none }

/-- C3: when the publish ioctl acts on fewer bytes than requested, the
implementation keeps the mapped prefix (marking it terminal in the SIGBUS
configuration), rewinds every page of the unmapped suffix from
`kProcessedAndMapping` back to its pre-publish state `kProcessed`, and
wakes waiters for exactly the unmapped suffix; no page of the requested
range is left in any state other than published or `kProcessed`
(re-publishable), and no page outside the request is touched. -/
theorem mapProcessedPages_partial_publish (states : Nat → PageState)
    (arrIdx arrLen m : Nat)
    (hdvd : gPageSize ∣ m) (hpos : 0 < m)
    (hlt : m < mapProcessedRequestLen states arrIdx arrLen) :
    let r := mapProcessedPages states arrIdx arrLen true (ContinueOutcome.eagain m)
    let mp := m / gPageSize
    let numPages := mapProcessedClaimCount states arrIdx arrLen + 1
    r.requestedLen = mapProcessedRequestLen states arrIdx arrLen ∧
    r.mappedLen = m ∧
    r.wake = some (m, mapProcessedRequestLen states arrIdx arrLen - m) ∧
    (∀ k, k < mp → r.states (arrIdx + k) = PageState.kProcessedAndMapped) ∧
    (∀ k, mp ≤ k → k < numPages → r.states (arrIdx + k) = PageState.kProcessed) ∧
    (∀ k, 1 ≤ k → k < numPages → states (arrIdx + k) = PageState.kProcessed) ∧
    (∀ i, i < arrIdx ∨ arrIdx + numPages ≤ i → r.states i = states i) := by
  intro r mp numPages
  obtain ⟨c, rfl⟩ := hdvd
  have hc : 0 < c := by
    by_contra h0
    push_neg at h0
    interval_cases c
    simp at hpos
  have hmp : mp = c := by
    show gPageSize * c / gPageSize = c
    exact Nat.mul_div_cancel_left c (by decide)
  have hcnum : c < numPages := by
    have : gPageSize * c < numPages * gPageSize := hlt
    have h2 : numPages * gPageSize = gPageSize * numPages := Nat.mul_comm _ _
    have h3 := Nat.lt_of_mul_lt_mul_left (a := gPageSize)
      (by omega : gPageSize * c < gPageSize * numPages)
    exact h3
  have hstates : r.states = fun i =>
      if arrIdx ≤ i ∧ i < arrIdx + mp then PageState.kProcessedAndMapped
      else if arrIdx + mp ≤ i ∧ i < arrIdx + numPages then PageState.kProcessed
      else if arrIdx + 1 ≤ i ∧ i < arrIdx + 1 +
          mapProcessedClaimCount states arrIdx arrLen then
        PageState.kProcessedAndMapping
      else states i := rfl
  refine ⟨rfl, rfl, rfl, ?_, ?_, ?_, ?_⟩
  · intro k hk
    rw [hstates]
    simp only
    rw [if_pos (by omega)]
  · intro k hk1 hk2
    rw [hstates]
    simp only
    rw [if_neg (by omega), if_pos (by omega)]
  · intro k hk1 hk2
    have := runLenOfState_mem PageState.kProcessed states (arrIdx + 1)
      (arrLen - (arrIdx + 1)) (k - 1)
      (by
        show k - 1 < mapProcessedClaimCount states arrIdx arrLen
        omega)
    rw [show arrIdx + 1 + (k - 1) = arrIdx + k from by omega] at this
    exact this
  · intro i hi
    rw [hstates]
    simp only
    rw [if_neg (by omega), if_neg (by omega), if_neg (by omega)]

/-- Witness for `mapProcessedPages_partial_publish`: three-page request
(faulted page 0 plus claimed pages 1 and 2) of which the kernel maps only
the first page; pages 1 and 2 are rewound to `kProcessed` and the wake
covers bytes `[4096, 12288)`. -/
theorem mapProcessedPages_partial_publish_witness :
    let sts := fun i => if i = 0 then PageState.kProcessedAndMapping
      else PageState.kProcessed
    let r := mapProcessedPages sts 0 3 true (ContinueOutcome.eagain 4096)
    let mp := 4096 / gPageSize
    let numPages := mapProcessedClaimCount sts 0 3 + 1
    r.requestedLen = mapProcessedRequestLen sts 0 3 ∧
    r.mappedLen = 4096 ∧
    r.wake = some (4096, mapProcessedRequestLen sts 0 3 - 4096) ∧
    (∀ k, k < mp → r.states (0 + k) = PageState.kProcessedAndMapped) ∧
    (∀ k, mp ≤ k → k < numPages → r.states (0 + k) = PageState.kProcessed) ∧
    (∀ k, 1 ≤ k → k < numPages → sts (0 + k) = PageState.kProcessed) ∧
    (∀ i, i < 0 ∨ 0 + numPages ≤ i → r.states i = sts i) :=
  mapProcessedPages_partial_publish
    (fun i => if i = 0 then PageState.kProcessedAndMapping else PageState.kProcessed)
    0 3 4096 (by decide) (by decide) (by decide)

/-! ### `MarkCompact::UpdateLivenessInfo` (C9)

As marking scans a live object of the moving region, the object's
alignment-rounded size is recorded in the live-words bitmap
(`SetLiveWords`) and spread over the per-chunk histogram
`chunk_info_vec_`: a first portion up to the end of the object's first
chunk, full-chunk entries for wholly covered chunks, and the remainder.
The bitmap is modelled as the set of live alignment-unit indices. -/

/-- Mark the `units` alignment units starting at `unitIdx` live. Modelled
from the spec: the live-words bitmap holds one bit per alignment unit, and
`SetLiveWords(begin, size)` (declared in the header) sets the bits of the
object's rounded extent and returns the begin bit index. -/
def setLiveWords (bitmap : Finset Nat) (unitIdx units : Nat) : Finset Nat :=
  bitmap ∪ Finset.Ico unitIdx (unitIdx + units)

/-- Embedding of `MarkCompact::LiveWordsBitmap::LiveBytesInBitmapWord`:
the number of set bits in chunk `chunkIdx`'s bitmap words, times the
alignment. -/
def liveBytesInBitmapWord (bitmap : Finset Nat) (chunkIdx : Nat) : Nat :=
  kAlignment * (bitmap ∩ Finset.Ico (chunkIdx * kBitsPerVectorWord)
    ((chunkIdx + 1) * kBitsPerVectorWord)).card

/-- The full-chunk/remainder loop of `UpdateLivenessInfo`: while more than
a chunk's worth of bytes remains, store `kOffsetChunkSize` into the next
entry; finally add the remainder to the entry after those. -/
def updateChunkLoop (vec : Nat → Nat) (chunkIdx sizeBytes : Nat) : Nat → Nat :=
  if kOffsetChunkSize < sizeBytes then
    updateChunkLoop (fun c => if c = chunkIdx then kOffsetChunkSize else vec c)
      (chunkIdx + 1) (sizeBytes - kOffsetChunkSize)
  else
    fun c => if c = chunkIdx then vec c + sizeBytes else vec c
termination_by sizeBytes
decreasing_by
  have h0 : 0 < kOffsetChunkSize := by decide
  omega

/-- Embedding of `MarkCompact::UpdateLivenessInfo` for an object starting
at alignment-unit index `unitIdx` with raw size `objSize`: set the live
words for the rounded size, then distribute that size over the chunk
histogram starting at the object's chunk, exactly as the code splits it
into first-chunk portion, full chunks and remainder. -/
def updateLivenessInfo (vec : Nat → Nat) (bitmap : Finset Nat)
    (unitIdx objSize : Nat) : (Nat → Nat) × Finset Nat :=
  let size := alignUp objSize kAlignment
  let bitmap' := setLiveWords bitmap unitIdx (size / kAlignment)
  let chunkIdx := unitIdx * kAlignment / kOffsetChunkSize
  let bitIdx := unitIdx % kBitsPerVectorWord
  let firstChunkPortion := min size ((kBitsPerVectorWord - bitIdx) * kAlignment)
  let vec₁ := fun c => if c = chunkIdx then vec c + firstChunkPortion else vec c
  (updateChunkLoop vec₁ (chunkIdx + 1) (size - firstChunkPortion), bitmap')

/-- Marking's per-object side effect applied over a list of live objects
`(unit index, raw size)`, as `ScanObject` discovers them. -/
def updateLivenessAll (vec : Nat → Nat) (bitmap : Finset Nat) :
    List (Nat × Nat) → (Nat → Nat) × Finset Nat
  | [] => (vec, bitmap)
  | o :: rest =>
    let p := updateLivenessInfo vec bitmap o.1 o.2
    updateLivenessAll p.1 p.2 rest

/-- Alignment units covered by an object `(unit index, raw size)` after the
code's `RoundUp(obj_size, kAlignment)`. -/
def objUnits (o : Nat × Nat) : Finset Nat :=
  Finset.Ico o.1 (o.1 + alignUp o.2 kAlignment / kAlignment)

theorem updateChunkLoop_spec (t : Nat) :
    ∀ (vec : Nat → Nat) (j : Nat),
    (∀ i, j ≤ i → i < j + t / kBitsPerVectorWord → vec i = 0) →
    ∀ c, updateChunkLoop vec j (kAlignment * t) c
      = vec c + kAlignment *
          ((Finset.Ico (j * kBitsPerVectorWord) (j * kBitsPerVectorWord + t)) ∩
            Finset.Ico (c * kBitsPerVectorWord) ((c + 1) * kBitsPerVectorWord)).card := by
  induction t using Nat.strong_induction_on with
  | _ t ih =>
    intro vec j hz c
    rw [updateChunkLoop]
    by_cases hbig : kOffsetChunkSize < kAlignment * t
    · have hbig' : kBitsPerVectorWord < t := by
        simp only [kOffsetChunkSize, kBitsPerVectorWord, kAlignment] at hbig ⊢
        omega
      rw [if_pos hbig]
      have hconv : kAlignment * t - kOffsetChunkSize
          = kAlignment * (t - kBitsPerVectorWord) := by
        simp only [kOffsetChunkSize, kBitsPerVectorWord, kAlignment]
        omega
      rw [hconv]
      have hzrec : ∀ i, j + 1 ≤ i →
          i < j + 1 + (t - kBitsPerVectorWord) / kBitsPerVectorWord →
          (fun c => if c = j then kOffsetChunkSize else vec c) i = 0 := by
        intro i hi1 hi2
        simp only
        rw [if_neg (by omega)]
        apply hz i (by omega)
        simp only [kBitsPerVectorWord] at hi2 ⊢
        omega
      rw [ih (t - kBitsPerVectorWord) (by simp only [kBitsPerVectorWord]; omega)
        _ (j + 1) hzrec c]
      show (if c = j then kOffsetChunkSize else vec c) + _ = _
      by_cases hcj : c = j
      · subst hcj
        have hvc : vec c = 0 := by
          apply hz c (by omega)
          simp only [kBitsPerVectorWord] at hbig' ⊢
          omega
        rw [if_pos rfl]
        rw [Finset.Ico_inter_Ico, Nat.card_Ico, Finset.Ico_inter_Ico, Nat.card_Ico]
        simp only [kOffsetChunkSize, kBitsPerVectorWord, kAlignment] at *
        omega
      · rw [if_neg hcj]
        rw [Finset.Ico_inter_Ico, Nat.card_Ico, Finset.Ico_inter_Ico, Nat.card_Ico]
        rcases Nat.lt_or_ge c j with hlt | hge
        · simp only [kBitsPerVectorWord, kAlignment] at *
          omega
        · have hgt : j < c := by omega
          simp only [kBitsPerVectorWord, kAlignment] at *
          omega
    · rw [if_neg hbig]
      have hsmall : t ≤ kBitsPerVectorWord := by
        simp only [kOffsetChunkSize, kBitsPerVectorWord, kAlignment] at hbig ⊢
        omega
      show (if c = j then vec c + kAlignment * t else vec c) = _
      by_cases hcj : c = j
      · subst hcj
        rw [if_pos rfl]
        rw [Finset.Ico_inter_Ico, Nat.card_Ico]
        simp only [kBitsPerVectorWord, kAlignment] at *
        omega
      · rw [if_neg hcj]
        rw [Finset.Ico_inter_Ico, Nat.card_Ico]
        rcases Nat.lt_or_ge c j with hlt | hge
        · simp only [kBitsPerVectorWord, kAlignment] at *
          omega
        · have hgt : j < c := by omega
          simp only [kBitsPerVectorWord, kAlignment] at *
          omega

theorem updateLivenessInfo_snd (vec : Nat → Nat) (bitmap : Finset Nat)
    (u objSize : Nat) :
    (updateLivenessInfo vec bitmap u objSize).2
      = bitmap ∪ objUnits (u, objSize) := rfl

theorem updateLivenessInfo_vec_spec (vec : Nat → Nat) (bitmap : Finset Nat)
    (u objSize : Nat)
    (hz : ∀ i, u / kBitsPerVectorWord < i →
        (i + 1) * kBitsPerVectorWord ≤ u + alignUp objSize kAlignment / kAlignment →
        vec i = 0)
    (c : Nat) :
    (updateLivenessInfo vec bitmap u objSize).1 c
      = vec c + kAlignment *
          ((Finset.Ico u (u + alignUp objSize kAlignment / kAlignment)) ∩
            Finset.Ico (c * kBitsPerVectorWord) ((c + 1) * kBitsPerVectorWord)).card := by
  have hsize : alignUp objSize kAlignment
      = kAlignment * (alignUp objSize kAlignment / kAlignment) := by
    simp only [alignUp, kAlignment]
    omega
  set t := alignUp objSize kAlignment / kAlignment with ht
  have heq : (updateLivenessInfo vec bitmap u objSize).1
      = updateChunkLoop
          (fun cc => if cc = u * kAlignment / kOffsetChunkSize then
              vec cc + min (alignUp objSize kAlignment)
                ((kBitsPerVectorWord - u % kBitsPerVectorWord) * kAlignment)
            else vec cc)
          (u * kAlignment / kOffsetChunkSize + 1)
          (alignUp objSize kAlignment - min (alignUp objSize kAlignment)
            ((kBitsPerVectorWord - u % kBitsPerVectorWord) * kAlignment)) := rfl
  rw [heq]
  by_cases hone : t ≤ kBitsPerVectorWord - u % kBitsPerVectorWord
  · -- the object's rounded size fits inside its first chunk
    have hmin : min (alignUp objSize kAlignment)
        ((kBitsPerVectorWord - u % kBitsPerVectorWord) * kAlignment)
        = alignUp objSize kAlignment := by
      rw [hsize]
      simp only [kBitsPerVectorWord, kAlignment] at hone ⊢
      omega
    rw [hmin, Nat.sub_self]
    rw [updateChunkLoop]
    rw [if_neg (by simp only [kOffsetChunkSize, kBitsPerVectorWord, kAlignment]; omega)]
    show (if c = u * kAlignment / kOffsetChunkSize + 1 then
        (if c = u * kAlignment / kOffsetChunkSize then
          vec c + alignUp objSize kAlignment else vec c) + 0
      else if c = u * kAlignment / kOffsetChunkSize then
          vec c + alignUp objSize kAlignment else vec c) = _
    rw [Finset.Ico_inter_Ico, Nat.card_Ico]
    rw [hsize]
    by_cases hc0 : c = u * kAlignment / kOffsetChunkSize
    · subst hc0
      rw [if_neg (by omega), if_pos rfl]
      simp only [kOffsetChunkSize, kBitsPerVectorWord, kAlignment] at *
      omega
    · rw [if_neg hc0]
      by_cases hc1 : c = u * kAlignment / kOffsetChunkSize + 1
      · rw [if_pos hc1]
        simp only [kOffsetChunkSize, kBitsPerVectorWord, kAlignment] at *
        omega
      · rw [if_neg hc1]
        simp only [kOffsetChunkSize, kBitsPerVectorWord, kAlignment] at *
        rcases Nat.lt_or_ge c (u * 8 / (64 * 8)) with hlt | hge
        · omega
        · have hgt : u * 8 / (64 * 8) < c := by omega
          omega
  · -- the object spills past its first chunk
    have hmin : min (alignUp objSize kAlignment)
        ((kBitsPerVectorWord - u % kBitsPerVectorWord) * kAlignment)
        = (kBitsPerVectorWord - u % kBitsPerVectorWord) * kAlignment := by
      rw [hsize]
      simp only [kBitsPerVectorWord, kAlignment] at hone ⊢
      omega
    rw [hmin]
    have hrem : alignUp objSize kAlignment -
        (kBitsPerVectorWord - u % kBitsPerVectorWord) * kAlignment
        = kAlignment * (t - (kBitsPerVectorWord - u % kBitsPerVectorWord)) := by
      rw [hsize]
      simp only [kBitsPerVectorWord, kAlignment]
      omega
    rw [hrem]
    have hzrec : ∀ i, u * kAlignment / kOffsetChunkSize + 1 ≤ i →
        i < u * kAlignment / kOffsetChunkSize + 1 +
          (t - (kBitsPerVectorWord - u % kBitsPerVectorWord)) / kBitsPerVectorWord →
        (fun cc => if cc = u * kAlignment / kOffsetChunkSize then
            vec cc + (kBitsPerVectorWord - u % kBitsPerVectorWord) * kAlignment
          else vec cc) i = 0 := by
      intro i hi1 hi2
      simp only
      rw [if_neg (by omega)]
      apply hz i
      · simp only [kOffsetChunkSize, kBitsPerVectorWord, kAlignment] at hi1 ⊢
        omega
      · simp only [kOffsetChunkSize, kBitsPerVectorWord, kAlignment] at hi1 hi2 ⊢
        omega
    rw [updateChunkLoop_spec _ _ _ hzrec c]
    show (if c = u * kAlignment / kOffsetChunkSize then
        vec c + (kBitsPerVectorWord - u % kBitsPerVectorWord) * kAlignment
      else vec c) + _ = _
    rw [Finset.Ico_inter_Ico, Nat.card_Ico, Finset.Ico_inter_Ico, Nat.card_Ico]
    by_cases hc0 : c = u * kAlignment / kOffsetChunkSize
    · subst hc0
      rw [if_pos rfl]
      simp only [kOffsetChunkSize, kBitsPerVectorWord, kAlignment] at *
      omega
    · rw [if_neg hc0]
      simp only [kOffsetChunkSize, kBitsPerVectorWord, kAlignment] at *
      rcases Nat.lt_or_ge c (u * 8 / (64 * 8)) with hlt | hge
      · omega
      · have hgt : u * 8 / (64 * 8) < c := by omega
        omega

theorem updateLivenessAll_spec (objs : List (Nat × Nat)) :
    ∀ (vec : Nat → Nat) (bitmap : Finset Nat),
    (∀ c, vec c = liveBytesInBitmapWord bitmap c) →
    (∀ o ∈ objs, Disjoint (objUnits o) bitmap) →
    objs.Pairwise (fun a b => Disjoint (objUnits a) (objUnits b)) →
    ∀ c, (updateLivenessAll vec bitmap objs).1 c
        = liveBytesInBitmapWord (updateLivenessAll vec bitmap objs).2 c := by
  induction objs with
  | nil =>
    intro vec bitmap hinv _ _ c
    exact hinv c
  | cons o rest ih =>
    intro vec bitmap hinv hdb hpw c
    have hdbo : Disjoint (objUnits o) bitmap := hdb o (List.mem_cons_self o rest)
    obtain ⟨hhead, htail⟩ := List.pairwise_cons.mp hpw
    have hz : ∀ i, o.1 / kBitsPerVectorWord < i →
        (i + 1) * kBitsPerVectorWord ≤ o.1 + alignUp o.2 kAlignment / kAlignment →
        vec i = 0 := by
      intro i hi1 hi2
      rw [hinv i]
      unfold liveBytesInBitmapWord
      have hsub : bitmap ∩ Finset.Ico (i * kBitsPerVectorWord)
          ((i + 1) * kBitsPerVectorWord) = ∅ := by
        apply Finset.eq_empty_of_forall_not_mem
        intro x hx
        obtain ⟨hxb, hxw'⟩ := Finset.mem_inter.mp hx
        have hxw := Finset.mem_Ico.mp hxw'
        have hxu : x ∈ objUnits o := by
          apply Finset.mem_Ico.mpr
          have h64 : (o.1 / kBitsPerVectorWord + 1) * kBitsPerVectorWord
              ≤ i * kBitsPerVectorWord := Nat.mul_le_mul_right _ (by omega)
          constructor
          · simp only [kBitsPerVectorWord] at *
            omega
          · simp only [kBitsPerVectorWord] at *
            omega
        exact (Finset.disjoint_left.mp hdbo hxu) hxb
      rw [hsub]
      simp
    have hinv' : ∀ c', (updateLivenessInfo vec bitmap o.1 o.2).1 c'
        = liveBytesInBitmapWord (updateLivenessInfo vec bitmap o.1 o.2).2 c' := by
      intro c'
      rw [updateLivenessInfo_vec_spec vec bitmap o.1 o.2 hz c']
      rw [updateLivenessInfo_snd]
      unfold liveBytesInBitmapWord
      rw [hinv c']
      unfold liveBytesInBitmapWord
      rw [Finset.union_inter_distrib_right, Finset.card_union_of_disjoint]
      · show _ + kAlignment * (objUnits o ∩ _).card = _
        ring
      · exact Disjoint.mono Finset.inter_subset_left Finset.inter_subset_left
          hdbo.symm
    have hdb' : ∀ o' ∈ rest,
        Disjoint (objUnits o') (updateLivenessInfo vec bitmap o.1 o.2).2 := by
      intro o' ho'
      rw [updateLivenessInfo_snd]
      exact Finset.disjoint_union_right.mpr
        ⟨hdb o' (List.mem_cons_of_mem o ho'), (hhead o' ho').symm⟩
    have := ih (updateLivenessInfo vec bitmap o.1 o.2).1
      (updateLivenessInfo vec bitmap o.1 o.2).2 hinv' hdb' htail c
    exact this

/-- C9: marking folds the compaction-metadata construction into the trace:
recording every live object of the moving region (pairwise-disjoint
alignment-unit ranges) through `UpdateLivenessInfo` leaves, for every
chunk, a histogram entry equal to the live bytes the live-words bitmap
records for that chunk (`LiveBytesInBitmapWord`), never exceeding the
chunk size. -/
theorem liveness_info_consistent (objs : List (Nat × Nat))
    (hdisj : objs.Pairwise (fun a b => Disjoint (objUnits a) (objUnits b)))
    (c : Nat) :
    (updateLivenessAll (fun _ => 0) ∅ objs).1 c
      = liveBytesInBitmapWord (updateLivenessAll (fun _ => 0) ∅ objs).2 c ∧
    (updateLivenessAll (fun _ => 0) ∅ objs).1 c ≤ kOffsetChunkSize := by
  have h1 := updateLivenessAll_spec objs (fun _ => 0) ∅
    (by intro c'; simp [liveBytesInBitmapWord]) (by intro o _; simp) hdisj c
  refine ⟨h1, ?_⟩
  rw [h1]
  unfold liveBytesInBitmapWord
  have hcard : ((updateLivenessAll (fun _ => 0) ∅ objs).2 ∩
      Finset.Ico (c * kBitsPerVectorWord) ((c + 1) * kBitsPerVectorWord)).card
      ≤ kBitsPerVectorWord := by
    calc ((updateLivenessAll (fun _ => 0) ∅ objs).2 ∩
        Finset.Ico (c * kBitsPerVectorWord) ((c + 1) * kBitsPerVectorWord)).card
        ≤ (Finset.Ico (c * kBitsPerVectorWord)
            ((c + 1) * kBitsPerVectorWord)).card :=
          Finset.card_le_card Finset.inter_subset_right
      _ ≤ kBitsPerVectorWord := by
          rw [Nat.card_Ico]
          simp only [kBitsPerVectorWord]
          omega
  have := Nat.mul_le_mul_left kAlignment hcard
  simp only [kOffsetChunkSize, kBitsPerVectorWord, kAlignment] at *
  omega

/-- Witness for `liveness_info_consistent`: two disjoint live objects of
raw sizes 20 and 52 at alignment units 0 and 10, checked at chunk 0. -/
theorem liveness_info_consistent_witness :
    (updateLivenessAll (fun _ => 0) ∅ [(0, 20), (10, 52)]).1 0
      = liveBytesInBitmapWord (updateLivenessAll (fun _ => 0) ∅ [(0, 20), (10, 52)]).2 0 ∧
    (updateLivenessAll (fun _ => 0) ∅ [(0, 20), (10, 52)]).1 0 ≤ kOffsetChunkSize :=
  liveness_info_consistent [(0, 20), (10, 52)]
    (by
      constructor
      · intro o' ho'
        have : o' = (10, 52) := by simpa using ho'
        subst this
        decide
      · simp)
    0

/-! ### `MarkCompact::FreeFromSpacePages` (C8)

Compaction proceeds from high to low destination indices, so once every
page at index ≥ `idx` is compacted, the from-space pages holding only data
of those pages can be released. The reclaim point must stay below nothing
a pending page may still read: the tail of a first object carried across
the `idx` boundary (found by walking forward while the per-page first
object stays the same) and any class recorded (in
`class_after_obj_ordered_map_`) as lying after a not-yet-compacted
instance. Addresses are pre-compaction byte addresses. -/

/-- Release batching threshold (`kMinFromSpaceMadviseSize = 8 * MB`). -/
def kMinFromSpaceMadviseSize : Nat := 8 * 1024 * 1024

/-- One entry of `class_after_obj_ordered_map_`: a class (its address and
end address, from the from-space `SizeOf`) together with the
lowest-address object recorded under it. -/
structure ClassAfterObjEntry where
  klass : Nat
  klassEnd : Nat
  obj : Nat
  deriving Repr, DecidableEq

/-- The forward walk of `FreeFromSpacePages`: starting at page `i`, find
the first page whose first object differs from `firstObj` and return that
object's address; if every remaining page (up to `fuel` pages) has the
same first object, return `black_allocations_begin_`. -/
def findDifferentFirstObj (firstObjs : Nat → Nat) (firstObj blackAllocBegin : Nat) :
    Nat → Nat → Nat
  | _, 0 => blackAllocBegin
  | i, fuel + 1 =>
    if firstObjs i ≠ firstObj then firstObjs i
    else findDifferentFirstObj firstObjs firstObj blackAllocBegin (i + 1) fuel

/-- Reclaim begin for a boundary `idx` in the compaction portion of the
moving space (`idx < moving_first_objs_count_`): the page's own start
source address, unless its first object starts earlier (an object carried
across the boundary), in which case the walk result; page-aligned up. -/
def computeReclaimBeginMain (firstObjs idxAddrF : Nat → Nat)
    (idx count blackAllocBegin : Nat) : Nat :=
  let ia := idxAddrF idx
  let fo := firstObjs idx
  let rb :=
    if fo < ia then
      findDifferentFirstObj firstObjs fo blackAllocBegin (idx + 1)
        (count - (idx + 1))
    else ia
  alignUp rb gPageSize

/-- The `class_after_obj_ordered_map_` check of `FreeFromSpacePages`:
iterate classes from the highest address down; a class inside the reclaim
range whose lowest recorded instance is not yet compacted pushes the
reclaim begin above the class; classes whose instance is already compacted
are consumed; the loop stops at the first class below the reclaim range. -/
def classLoopAdjust (idxAddr : Nat) : Nat → List ClassAfterObjEntry → Nat
  | rb, [] => rb
  | rb, e :: rest =>
    if rb ≤ e.klassEnd then
      if e.obj < idxAddr then alignUp e.klassEnd gPageSize
      else classLoopAdjust idxAddr rb rest
    else rb

/-- The range `FreeFromSpacePages` releases (as `[start, stop)` source
addresses), if the batch threshold is met: the code frees
`[reclaim_begin + 4 pages, last_reclaimed_page_)`, retaining four buffer
pages. -/
def freeFromSpacePagesReleased (firstObjs idxAddrF : Nat → Nat)
    (idx count blackAllocBegin : Nat) (classMap : List ClassAfterObjEntry)
    (lastReclaimedPage : Nat) : Option (Nat × Nat) :=
  let rb0 := computeReclaimBeginMain firstObjs idxAddrF idx count blackAllocBegin
  let rb := classLoopAdjust (idxAddrF idx) rb0 classMap
  if kMinFromSpaceMadviseSize < lastReclaimedPage - rb then
    some (rb + 4 * gPageSize, lastReclaimedPage)
  else none

theorem classLoopAdjust_ge (idxAddr rb : Nat) (l : List ClassAfterObjEntry) :
    rb ≤ classLoopAdjust idxAddr rb l := by
  induction l generalizing rb with
  | nil => exact Nat.le_refl rb
  | cons e rest ih =>
    unfold classLoopAdjust
    by_cases h1 : rb ≤ e.klassEnd
    · rw [if_pos h1]
      by_cases h2 : e.obj < idxAddr
      · rw [if_pos h2]
        exact Nat.le_trans h1 (le_alignUp (by decide))
      · rw [if_neg h2]
        exact ih rb
    · rw [if_neg h1]

theorem classLoopAdjust_safe (idxAddr rb : Nat) (l : List ClassAfterObjEntry)
    (hsorted : l.Pairwise (fun a b => b.klassEnd ≤ a.klass))
    (hke : ∀ e ∈ l, e.klass ≤ e.klassEnd) :
    ∀ e ∈ l, e.obj < idxAddr → e.klassEnd ≤ classLoopAdjust idxAddr rb l := by
  induction l generalizing rb with
  | nil => intro e he; cases he
  | cons a rest ih =>
    obtain ⟨hhead, htail⟩ := List.pairwise_cons.mp hsorted
    intro e he hpend
    unfold classLoopAdjust
    by_cases h1 : rb ≤ a.klassEnd
    · rw [if_pos h1]
      by_cases h2 : a.obj < idxAddr
      · rw [if_pos h2]
        rcases List.mem_cons.mp he with rfl | hrest
        · exact le_alignUp (by decide)
        · have h3 : e.klassEnd ≤ a.klass := hhead e hrest
          have h4 : a.klass ≤ a.klassEnd := hke a (List.mem_cons_self a rest)
          exact Nat.le_trans h3 (Nat.le_trans h4 (le_alignUp (by decide)))
      · rw [if_neg h2]
        rcases List.mem_cons.mp he with rfl | hrest
        · exact absurd hpend h2
        · exact ih rb htail (fun x hx => hke x (List.mem_cons_of_mem a hx)) e hrest hpend
    · rw [if_neg h1]
      rcases List.mem_cons.mp he with rfl | hrest
      · omega
      · have h3 : e.klassEnd ≤ a.klass := hhead e hrest
        have h4 : a.klass ≤ a.klassEnd := hke a (List.mem_cons_self a rest)
        omega

theorem findDifferentFirstObj_cases (firstObjs : Nat → Nat)
    (firstObj blackAllocBegin : Nat) (i fuel : Nat) :
    findDifferentFirstObj firstObjs firstObj blackAllocBegin i fuel
        = blackAllocBegin ∨
    ∃ i', i ≤ i' ∧ i' < i + fuel ∧ firstObjs i' ≠ firstObj ∧
      findDifferentFirstObj firstObjs firstObj blackAllocBegin i fuel
        = firstObjs i' := by
  induction fuel generalizing i with
  | zero => left; rfl
  | succ n ih =>
    unfold findDifferentFirstObj
    by_cases h : firstObjs i ≠ firstObj
    · rw [if_pos h]
      right
      exact ⟨i, Nat.le_refl i, by omega, h, rfl⟩
    · rw [if_neg h]
      rcases ih (i + 1) with hb | ⟨i', hi1, hi2, hi3, hi4⟩
      · left; exact hb
      · right; exact ⟨i', by omega, by omega, hi3, hi4⟩

/-- C8: assuming the descriptor invariants the code maintains (objects are
disjoint and end by the black-allocations boundary, only the boundary
page's first object crosses the boundary page's first source byte, pages
after the boundary whose first object differs start at or after the end of
the carried object, and the class map is address-descending with disjoint
classes), every range released by `FreeFromSpacePages` lies entirely above
the end of every object still needed by a not-yet-compacted page — both
objects of the pending source region and classes recorded after a pending
instance. -/
theorem free_from_space_pages_safe (firstObjs idxAddrF : Nat → Nat)
    (idx count blackAllocBegin spanSize : Nat)
    (objects : List (Nat × Nat)) (classMap : List ClassAfterObjEntry)
    (lastReclaimedPage rs re : Nat)
    (hcross : ∀ o ∈ objects, o.1 < idxAddrF idx →
        o.1 + o.2 ≤ idxAddrF idx ∨ o.1 = firstObjs idx)
    (hdisj : ∀ a ∈ objects, ∀ b ∈ objects, a ≠ b →
        a.1 + a.2 ≤ b.1 ∨ b.1 + b.2 ≤ a.1)
    (hbound : ∀ o ∈ objects, o.1 + o.2 ≤ blackAllocBegin)
    (hspan : firstObjs idx < idxAddrF idx →
        (firstObjs idx, spanSize) ∈ objects ∧
        idxAddrF idx ≤ firstObjs idx + spanSize)
    (hwalk : ∀ i, idx < i → i < count → firstObjs i ≠ firstObjs idx →
        firstObjs idx + spanSize ≤ firstObjs i)
    (hsorted : classMap.Pairwise (fun a b => b.klassEnd ≤ a.klass))
    (hke : ∀ e ∈ classMap, e.klass ≤ e.klassEnd)
    (hrel : freeFromSpacePagesReleased firstObjs idxAddrF idx count
        blackAllocBegin classMap lastReclaimedPage = some (rs, re)) :
    (∀ o ∈ objects, o.1 < idxAddrF idx → o.1 + o.2 ≤ rs) ∧
    (∀ e ∈ classMap, e.obj < idxAddrF idx → e.klassEnd ≤ rs) := by
  set ia := idxAddrF idx with hia_def
  set fo := firstObjs idx with hfo_def
  set rb0 := computeReclaimBeginMain firstObjs idxAddrF idx count blackAllocBegin
    with hrb0
  set rb := classLoopAdjust ia rb0 classMap with hrb
  have hrs : rs = rb + 4 * gPageSize := by
    unfold freeFromSpacePagesReleased at hrel
    by_cases hif : kMinFromSpaceMadviseSize <
        lastReclaimedPage - classLoopAdjust (idxAddrF idx)
          (computeReclaimBeginMain firstObjs idxAddrF idx count blackAllocBegin)
          classMap
    · rw [if_pos hif] at hrel
      injection hrel with hpair
      have := congrArg Prod.fst hpair
      simpa using this.symm
    · rw [if_neg hif] at hrel
      cases hrel
  -- every pending object ends at or below the pre-alignment reclaim begin
  have hpend : ∀ o ∈ objects, o.1 < ia →
      o.1 + o.2 ≤ (if fo < ia then
        findDifferentFirstObj firstObjs fo blackAllocBegin (idx + 1)
          (count - (idx + 1))
      else ia) := by
    intro o ho hop
    by_cases hsp : fo < ia
    · rw [if_pos hsp]
      obtain ⟨hmem, hreach⟩ := hspan hsp
      rcases findDifferentFirstObj_cases firstObjs fo blackAllocBegin (idx + 1)
          (count - (idx + 1)) with hb | ⟨i', hi1, hi2, hi3, hi4⟩
      · rw [hb]
        exact hbound o ho
      · rw [hi4]
        have hge : fo + spanSize ≤ firstObjs i' :=
          hwalk i' (by omega) (by omega) hi3
        rcases hcross o ho hop with hend | hofo
        · omega
        · by_cases hoeq : o = (fo, spanSize)
          · subst hoeq
            omega
          · rcases hdisj o ho (fo, spanSize) hmem hoeq with h1 | h1
            · simp only at h1
              omega
            · simp only at h1
              omega
    · rw [if_neg hsp]
      rcases hcross o ho hop with hend | hofo
      · exact hend
      · omega
  have hrb0ge : (if fo < ia then
        findDifferentFirstObj firstObjs fo blackAllocBegin (idx + 1)
          (count - (idx + 1))
      else ia) ≤ rb0 := by
    rw [hrb0]
    unfold computeReclaimBeginMain
    exact le_alignUp (by decide)
  have hrbge : rb0 ≤ rb := classLoopAdjust_ge ia rb0 classMap
  constructor
  · intro o ho hop
    have h1 := hpend o ho hop
    omega
  · intro e he hpe
    have h1 := classLoopAdjust_safe ia rb0 classMap hsorted hke e he hpe
    omega

/-- Witness for `free_from_space_pages_safe`: boundary page 1 whose first
object (at 4000, size 200) is carried across the boundary at 4096; one
object wholly below the boundary, one class above a pending instance.
The release keeps everything a pending page still needs. -/
theorem free_from_space_pages_safe_witness :
    (∀ o ∈ [((0 : Nat), (4000 : Nat)), (4000, 200), (4200, 88)],
        o.1 < 4096 → o.1 + o.2 ≤ 8192 + 4 * gPageSize) ∧
    (∀ e ∈ [ClassAfterObjEntry.mk 4200 4288 0],
        e.obj < 4096 → e.klassEnd ≤ 8192 + 4 * gPageSize) := by
  have h := free_from_space_pages_safe
    (fun i => if i ≤ 1 then 4000 else 4200)
    (fun i => i * 4096)
    1 3 16384 200
    [((0 : Nat), (4000 : Nat)), (4000, 200), (4200, 88)]
    [ClassAfterObjEntry.mk 4200 4288 0]
    (16384 + 8 * 1024 * 1024 + 8192) (8192 + 4 * gPageSize)
    (16384 + 8 * 1024 * 1024 + 8192)
    (by decide) (by decide) (by decide) (by decide)
    (by
      intro i hi1 hi2 hne
      interval_cases i
      decide)
    (by decide) (by decide)
    (by decide)
  exact h

end MarkCompactProof
